import Mathlib

/-!
Verification of the MixMatch training-step module (src/mixmatch.py).

The development shallowly embeds the numeric slices of the training step:
tensors are lists of real numbers (a batch is a list of rows, a row is a
list of class entries), softmax is defined with Real.exp, sharpening with
Real.rpow, and the Python-level temperature is a rational number.  Graph
plumbing (reshape / split / transpose / interleave) is embedded as list
operations, the global UPDATE_OPS collection as explicit list state, and
gradient detachment (tf.stop_gradient) via a small expression language
with forward-mode differentiation.
-/

namespace MixMatchSpec

/-! ## List utilities used by the tensor plumbing -/

/-- Splitting a list into consecutive chunks of size k (the embedding of a
reshape to shape n x k x c, and of tf.split into equal parts). -/
def chunkList {α : Type} (k : ℕ) : List α → List (List α)
  | [] => []
  | a :: as =>
    if hk : k = 0 then [] else (a :: as).take k :: chunkList k ((a :: as).drop k)
termination_by l => l.length
decreasing_by
  simp only [List.length_drop, List.length_cons]
  omega

/-- Transpose of a rectangular list-of-lists (embedding of tf.transpose on
the first two axes). -/
def transposeL {α : Type} : List (List α) → List (List α)
  | [] => []
  | [r] => r.map (fun x => [x])
  | r :: s :: t => List.zipWith List.cons r (transposeL (s :: t))

/-- Embedding of tf.split(l, n): n consecutive chunks of equal size. -/
def tfSplit {α : Type} (n : ℕ) (l : List α) : List (List α) :=
  chunkList (l.length / n) l

/-! ## Softmax, label guessing (MixMatch.guess_label, lines 56-66) -/

/-- Embedding of tf.nn.softmax on one row of logits. -/
noncomputable def softmax (z : List ℝ) : List ℝ :=
  z.map (fun x => Real.exp x / (z.map Real.exp).sum)

/-- Element-wise sum of a list of equal-shape matrices. -/
noncomputable def sumTensors : List (List (List ℝ)) → List (List ℝ)
  | [] => []
  | [m] => m
  | m :: ms => List.zipWith (List.zipWith (fun a b => a + b)) m (sumTensors ms)

/-- Embedding of tf.reduce_mean(t, axis=0) on a stack of equal-shape
matrices: element-wise sum divided by the number of matrices. -/
noncomputable def meanAxis0 (ts : List (List (List ℝ))) : List (List ℝ) :=
  (sumTensors ts).map (fun row => row.map (fun x => x / (ts.length : ℝ)))

/-- Result of MixMatch.guess_label: the EasyDict with keys p_target and
p_model. -/
structure GuessResult where
  p_target : List (List ℝ)
  p_model : List (List ℝ)

/-- Message of the Python ZeroDivisionError raised by the expression 1/T
at line 64 when the temperature is zero. -/
def zeroDivisionMsg : String := "ZeroDivisionError: float division by zero"

/-- Embedding of MixMatch.guess_label (src/mixmatch.py lines 56-66).
Input y is the list of nu view batches of images (type I), classifier maps
an image to its logits row, T is the Python float temperature (a rational).
The per-view logits are concatenated (flatten), softmaxed row-wise,
reshaped to nu x batch x nclass (chunkList at the inferred middle
dimension), averaged over axis 0, and the target is the element-wise power
1/T renormalized per row.  A zero temperature raises ZeroDivisionError in
Python while building the step, embedded as the error case. -/
noncomputable def guess_label {I : Type} (y : List (List I)) (classifier : I → List ℝ)
    (T : ℚ) : Except String GuessResult :=
  if T = 0 then Except.error zeroDivisionMsg else
  let logits_y := (y.map (fun yi => yi.map classifier)).flatten
  let p_rows := logits_y.map softmax
  let p_model_y := meanAxis0 (chunkList (p_rows.length / y.length) p_rows)
  let p_target0 := p_model_y.map (fun row => row.map (fun x => x ^ ((((1 : ℚ) / T : ℚ)) : ℝ)))
  let p_target := p_target0.map (fun row => row.map (fun x => x / row.sum))
  Except.ok { p_target := p_target, p_model := p_model_y }

/-- Written from the wording of the spec: for each of the nu views compute
classifier logits, softmax to a distribution, then average across the nu
views element-wise. -/
noncomputable def viewAveragedSoftmax {I : Type} (y : List (List I))
    (classifier : I → List ℝ) : List (List ℝ) :=
  meanAxis0 (y.map (fun b => b.map (fun i => softmax (classifier i))))

/-- Written from the wording of the spec: sharpening one row, meaning the
row raised element-wise to the power 1/T and then renormalized so the row
sums to 1. -/
noncomputable def sharpenSpec (T : ℚ) (row : List ℝ) : List ℝ :=
  let q := row.map (fun x => x ^ ((((1 : ℚ) / T : ℚ)) : ℝ))
  q.map (fun x => x / q.sum)

/-- Embedding of the sharpening steps alone (src/mixmatch.py lines 64-65):
element-wise power 1/T, then division by the row sum. -/
noncomputable def sharpen (p : List ℝ) (T : ℚ) : List ℝ :=
  let q := p.map (fun x => x ^ ((((1 : ℚ) / T : ℚ)) : ℝ))
  q.map (fun x => x / q.sum)

/-! ## Matching-loss warm-up weight (src/mixmatch.py line 81) -/

/-- Embedding of line 81: the matching weight is w_match times
tf.clip_by_value(step / (warmup_kimg shifted left by 10), 0, 1), where
clip_by_value(x, lo, hi) is min (max x lo) hi and step counts processed
examples. -/
noncomputable def rampedWMatch (w_match : ℝ) (warmup_kimg step : ℕ) : ℝ :=
  w_match * min (max ((step : ℝ) / ((warmup_kimg <<< 10 : ℕ) : ℝ)) 0) 1

/-! ## Training losses (src/mixmatch.py lines 113-116 and 131) -/

/-- Embedding of tf.nn.softmax_cross_entropy_with_logits_v2 on one row:
the negative sum of labels times the log of the softmax of the logits. -/
noncomputable def xent (labels logits : List ℝ) : ℝ :=
  -(List.zipWith (fun l p => l * Real.log p) labels (softmax logits)).sum

/-- Embedding of tf.reduce_mean on a vector. -/
noncomputable def reduceMean (v : List ℝ) : ℝ := v.sum / (v.length : ℝ)

/-- Embedding of tf.reduce_mean over all entries of a matrix. -/
noncomputable def reduceMeanAll (m : List (List ℝ)) : ℝ :=
  m.flatten.sum / (m.flatten.length : ℝ)

/-- Embedding of lines 113-114: batch vector of per-row cross entropies,
then reduce_mean. -/
noncomputable def loss_xe (labels_x logits_x : List (List ℝ)) : ℝ :=
  reduceMean (List.zipWith xent labels_x logits_x)

/-- Embedding of lines 115-116: element-wise squares of
labels_y - softmax(logits_y), then reduce_mean over all entries. -/
noncomputable def loss_l2u (labels_y logits_y : List (List ℝ)) : ℝ :=
  reduceMeanAll (List.zipWith (fun lr zr => List.zipWith (fun a b => (a - b) ^ 2) lr zr)
    labels_y (logits_y.map softmax))

/-- Embedding of the scalar handed to AdamOptimizer(lr).minimize at line
131: loss_xe plus the ramped w_match (line 81) times loss_l2u. -/
noncomputable def trainStepObjective (w_match : ℝ) (warmup_kimg step : ℕ)
    (labels_x logits_x labels_y logits_y : List (List ℝ)) : ℝ :=
  loss_xe labels_x logits_x +
    rampedWMatch w_match warmup_kimg step * loss_l2u labels_y logits_y

/-- Written from the wording of the spec: cross entropy between a label
row and a probability row. -/
noncomputable def crossEntropy (labels probs : List ℝ) : ℝ :=
  -(List.zipWith (fun l p => l * Real.log p) labels probs).sum

/-- Written from the wording of the spec: batch-mean softmax cross-entropy
between the labeled-stream logits and the labeled-stream mixed labels. -/
noncomputable def supervisedLossSpec (labels logits : List (List ℝ)) : ℝ :=
  (List.zipWith (fun l z => crossEntropy l (softmax z)) labels logits).sum
    / (labels.length : ℝ)

/-- Written from the wording of the spec: mean squared error between two
equal-shape matrices with nclass columns, the sum of all squared
differences divided by the number of entries. -/
noncomputable def mseSpec (a b : List (List ℝ)) (nclass : ℕ) : ℝ :=
  (List.zipWith (fun ra rb => (List.zipWith (fun x y => (x - y) ^ 2) ra rb).sum) a b).sum
    / ((a.length * nclass : ℕ) : ℝ)

/-! ## Model configuration and the temperature wiring (lines 68 and 94) -/

/-- Configuration surface of MixMatch.model: exactly the keyword
parameters of its signature at line 68.  There is no temperature field. -/
structure Config where
  batch : ℕ
  lr : ℝ
  wd : ℝ
  ema : ℝ
  beta : ℝ
  w_match : ℝ
  warmup_kimg : ℕ
  nu : ℕ
  mixmode : String
  dbuf : ℕ

/-- Embedding of lines 93-94 of MixMatch.model: the unlabeled input of
shape batch x nu is transposed to nu x batch, flattened to rows, split
into nu view batches, and fed to guess_label with the literal temperature
T = 0.5. -/
noncomputable def modelGuess {I : Type} (cfg : Config) (y_in : List (List I))
    (classifier : I → List ℝ) : Except String GuessResult :=
  guess_label (tfSplit cfg.nu (transposeL y_in).flatten) classifier (1/2)

/-! ## Weight decay (src/mixmatch.py lines 79 and 129) -/

/-- A trainable variable of the classifier scope: its name and value. -/
structure TrainVar where
  name : String
  value : ℝ

/-- Name fragment selecting the variables that receive weight decay. -/
def kernelToken : String := "kernel"

/-- Substring test on character lists, the embedding of the Python
expression pat in s. -/
def containsSub (pat : List Char) : List Char → Bool
  | [] => pat.isEmpty
  | c :: rest => pat.isPrefixOf (c :: rest) || containsSub pat rest

/-- Embedding of the Python test at line 129 selecting kernel variables. -/
def hasKernel (s : String) : Bool := containsSub kernelToken.data s.data

/-- Embedding of the combined effect on the classifier variable store of
line 79 (wd is multiplied by lr) and the assign ops of line 129: every
variable whose name contains the kernel fragment is multiplied by
1 - wd * lr, every other variable is untouched. -/
noncomputable def applyWeightDecay (wd lr : ℝ) (vars : List TrainVar) : List TrainVar :=
  vars.map (fun v =>
    if hasKernel v.name then { name := v.name, value := v.value * (1 - wd * lr) } else v)

/-! ## Update-ops collection (src/mixmatch.py lines 104-108) -/

/-- Graph operations are identified by numeric ids. -/
abbrev Op := ℕ

/-- Embedding of lines 103-108: the global UPDATE_OPS collection starts at
collection0 (ops registered by earlier forward passes, e.g. inside
guess_label); skip_ops snapshots it; the forward pass over interleaved
batch 0 appends emit 0; post_ops keeps exactly the collection entries not
in skip_ops; the remaining n - 1 forward passes append their ops to the
collection but post_ops is never recomputed.  Returns (post_ops, final
collection). -/
def buildLogitsPostOps (collection0 : List Op) (emit : ℕ → List Op) (n : ℕ) :
    List Op × List Op :=
  let skip_ops := collection0
  let coll1 := collection0 ++ emit 0
  let post_ops := coll1.filter (fun v => !(skip_ops.contains v))
  let collFinal := coll1 ++ ((List.range (n - 1)).map (fun i => emit (i + 1))).flatten
  (post_ops, collFinal)

/-- Embedding of lines 124-133: the ops grouped with the optimizer update:
post_ops from the forward passes extended with the bookkeeping ops (EMA
update, tracker updates, weight-decay assigns). -/
def committedPostOps (collection0 : List Op) (emit : ℕ → List Op) (n : ℕ)
    (bookkeeping : List Op) : List Op :=
  (buildLogitsPostOps collection0 emit n).1 ++ bookkeeping

/-! ## Gradient detachment (src/mixmatch.py line 96) -/

/-- Scalar expression language over one classifier parameter, with
tf.stop_gradient as a constructor.  This is the embedding used for the
gradient claims: eval gives the value of the graph node, grad its
forward-mode derivative with respect to the parameter. -/
inductive Exp : Type where
  | lit : ℚ → Exp
  | param : Exp
  | add : Exp → Exp → Exp
  | sub : Exp → Exp → Exp
  | mul : Exp → Exp → Exp
  | stopGrad : Exp → Exp

/-- Value of an expression at parameter value t; stop_gradient is the
identity on values. -/
def Exp.eval (t : ℚ) : Exp → ℚ
  | .lit q => q
  | .param => t
  | .add a b => Exp.eval t a + Exp.eval t b
  | .sub a b => Exp.eval t a - Exp.eval t b
  | .mul a b => Exp.eval t a * Exp.eval t b
  | .stopGrad a => Exp.eval t a

/-- Derivative of an expression with respect to the parameter at t;
stop_gradient blocks all backward flow, so its derivative is 0. -/
def Exp.grad (t : ℚ) : Exp → ℚ
  | .lit _ => 0
  | .param => 1
  | .add a b => Exp.grad t a + Exp.grad t b
  | .sub a b => Exp.grad t a - Exp.grad t b
  | .mul a b => Exp.grad t a * Exp.eval t b + Exp.eval t a * Exp.grad t b
  | .stopGrad _ => 0

/-- Squared error between the pseudo-label node and the softmax-logits
node, the scalar skeleton of loss_l2u. -/
def l2uExp (label logits : Exp) : Exp := .mul (.sub label logits) (.sub label logits)

/-- Convex mixing of two label nodes with coefficient lam, the scalar
skeleton of the MixUp label combination the pseudo-label goes through. -/
def mixExp (lam : ℚ) (a b : Exp) : Exp :=
  .add (.mul (.lit lam) a) (.mul (.lit (1 - lam)) b)

/-- Total loss skeleton of line 131: the supervised term plus w times the
consistency term built from the (possibly mixed) pseudo-label. -/
def totalLossExp (xeTerm : Exp) (w : ℚ) (label logits : Exp) : Exp :=
  .add xeTerm (.mul (.lit w) (l2uExp label logits))

/-! ## Interleaving scheduler (called at lines 103 and 109; the function
layers.interleave itself lives in the external libml package) -/

/-- Modelled from the spec: per-stream group sizes used by the missing
libml.layers.interleave, batch examples split over nu + 1 groups as evenly
as possible with the remainder pushed to the trailing groups. -/
def groupSizes (batch nu : ℕ) : List ℕ :=
  List.replicate (nu + 1 - batch % (nu + 1)) (batch / (nu + 1)) ++
    List.replicate (batch % (nu + 1)) (batch / (nu + 1) + 1)

/-- Modelled from the spec: split a list into consecutive groups of the
given sizes. -/
def splitSizes {α : Type} : List ℕ → List α → List (List α)
  | [], _ => []
  | s :: ss, l => l.take s :: splitSizes ss (l.drop s)

/-- Modelled from the spec: the index permutation of the group swap; in
column j the group of stream 0 and the group of stream j trade places, an
involution of the row index. -/
def swapIdx (j i : ℕ) : ℕ := if i = 0 then j else if i = j then 0 else i

/-- Modelled from the spec: the group swap of the missing
libml.layers.interleave, entry (i, j) of the output is entry
(swapIdx j i, j) of the input. -/
def swapDiag {β : Type} (M : List (List β)) : List (List β) :=
  M.mapIdx (fun i row => row.mapIdx (fun j x => (M.getD (swapIdx j i) []).getD j x))

/-- Modelled from the spec: the missing libml.layers.interleave, which
reorders a list of nu + 1 equally sized batches into concatenation order
so that one forward pass and a second interleave recover per-stream
outputs; each batch is split into groups, groups are swapped across the
diagonal, and each stream is re-concatenated. -/
def interleave {α : Type} (xy : List (List α)) (batch : ℕ) : List (List α) :=
  let szs := groupSizes batch (xy.length - 1)
  (swapDiag (xy.map (fun v => splitSizes szs v))).map List.flatten

/-- Entry (i, j) of a list of lists, as an Option; used to reason about
the group swap. -/
def entry {β : Type} (M : List (List β)) (i j : ℕ) : Option β :=
  (M.get? i).bind (fun row => row.get? j)

/-! ## Helper lemmas -/

theorem flatten_length_uniform {α : Type} (m : ℕ) :
    ∀ L : List (List α), (∀ r ∈ L, r.length = m) → L.flatten.length = L.length * m := by
  intro L
  induction L with
  | nil => intro _; simp
  | cons r t ih =>
    intro h
    have hr : r.length = m := h r (by simp)
    have ht : t.flatten.length = t.length * m := ih (fun s hs => h s (by simp [hs]))
    simp only [List.flatten_cons, List.length_append, hr, ht, List.length_cons]
    ring

theorem chunkList_flatten {α : Type} (k : ℕ) (hk : 0 < k) :
    ∀ L : List (List α), (∀ r ∈ L, r.length = k) → chunkList k L.flatten = L := by
  intro L
  induction L with
  | nil => intro _; simp [chunkList]
  | cons r t ih =>
    intro h
    have hr : r.length = k := h r (by simp)
    have hrne : r ≠ [] := by
      intro hcon
      rw [hcon] at hr
      simp at hr
      omega
    obtain ⟨a, as, rfl⟩ := List.exists_cons_of_ne_nil hrne
    have hk0 : ¬ k = 0 := Nat.pos_iff_ne_zero.mp hk
    simp only [List.flatten_cons, List.cons_append]
    rw [chunkList]
    simp only [hk0, dite_false]
    have htake : List.take k (a :: (as ++ t.flatten)) = a :: as := by
      have : a :: (as ++ t.flatten) = (a :: as) ++ t.flatten := by simp
      rw [this, ← hr, List.take_left]
    have hdrop : List.drop k (a :: (as ++ t.flatten)) = t.flatten := by
      have : a :: (as ++ t.flatten) = (a :: as) ++ t.flatten := by simp
      rw [this, ← hr, List.drop_left]
    rw [htake, hdrop, ih (fun s hs => h s (by simp [hs]))]

/-! ## Claim C1: guess_label computes the view-averaged softmax and the
sharpened target -/

/-- C1: for every list of equally-sized view batches, classifier and
temperature T greater than 0, guess_label returns p_model equal to the
element-wise mean over the views of the softmax of the classifier logits,
and p_target equal to p_model raised element-wise to the power 1/T and
renormalized per example. -/
theorem guess_label_correct {I : Type} (y : List (List I)) (classifier : I → List ℝ)
    (T : ℚ) (m : ℕ) (hT : 0 < T) (hy : y ≠ []) (hm : ∀ b ∈ y, b.length = m)
    (hm0 : 0 < m) :
    guess_label y classifier T =
      Except.ok { p_target := (viewAveragedSoftmax y classifier).map (sharpenSpec T),
                  p_model := viewAveragedSoftmax y classifier } := by
  have hT0 : ¬ T = 0 := ne_of_gt hT
  rw [guess_label, if_neg hT0]
  set L := y.map (fun b => b.map (fun i => softmax (classifier i))) with hL
  have hrows : ((y.map (fun yi => yi.map classifier)).flatten).map softmax = L.flatten := by
    rw [List.map_flatten, hL, List.map_map]
    congr 1
    apply List.map_congr_left
    intro b _
    simp [Function.comp, List.map_map]
  have hLlen : ∀ r ∈ L, r.length = m := by
    intro r hr
    rw [hL] at hr
    obtain ⟨b, hb, rfl⟩ := List.mem_map.mp hr
    simp [hm b hb]
  have hflat : L.flatten.length = y.length * m := by
    rw [flatten_length_uniform m L hLlen, hL, List.length_map]
  have hylen : 0 < y.length := List.length_pos.mpr hy
  have hdiv : L.flatten.length / y.length = m := by
    rw [hflat]
    exact Nat.mul_div_right m hylen
  have hchunk : chunkList (L.flatten.length / y.length) L.flatten = L := by
    rw [hdiv]
    exact chunkList_flatten m hm0 L hLlen
  simp only [hrows, hchunk]
  have hV : viewAveragedSoftmax y classifier = meanAxis0 L := by
    rw [viewAveragedSoftmax, hL]
  rw [hV, List.map_map]
  rfl

/-- Witness for C1 at a concrete input: two identical one-image views with
zero logits over two classes and temperature one half. -/
theorem guess_label_correct_witness :
    guess_label [[()], [()]] (fun _ : Unit => [(0 : ℝ), 0]) (1/2) =
      Except.ok { p_target := (viewAveragedSoftmax [[()], [()]]
                    (fun _ : Unit => [(0 : ℝ), 0])).map (sharpenSpec (1/2)),
                  p_model := viewAveragedSoftmax [[()], [()]]
                    (fun _ : Unit => [(0 : ℝ), 0]) } :=
  guess_label_correct [[()], [()]] (fun _ : Unit => [(0 : ℝ), 0]) (1/2) 1
    (by norm_num) (by simp) (by decide) (by norm_num)

/-! ## Claim C9: sharpening with temperature one is the identity -/

/-- C9: for every probability vector p (non-negative entries summing to 1),
sharpening with temperature T = 1 returns p unchanged. -/
theorem sharpen_temperature_one (p : List ℝ) (hnn : ∀ x ∈ p, 0 ≤ x)
    (hsum : p.sum = 1) : sharpen p 1 = p := by
  have h1 : (((1 : ℚ) / 1 : ℚ) : ℝ) = 1 := by norm_num
  simp only [sharpen, h1, Real.rpow_one]
  have hid : p.map (fun x => x) = p := List.map_id' p
  rw [hid, hsum]
  simp

/-- Witness for C9 at the concrete one-hot vector with two classes. -/
theorem sharpen_temperature_one_witness : sharpen [(1 : ℝ), 0] 1 = [(1 : ℝ), 0] :=
  sharpen_temperature_one [(1 : ℝ), 0]
    (by
      intro x hx
      simp only [List.mem_cons, List.mem_singleton, List.not_mem_nil, or_false] at hx
      rcases hx with rfl | rfl <;> norm_num)
    (by simp)

/-! ## Claim C3: the matching-loss weight ramp -/

/-- C3: for every processed-example count s, the matching-loss weight is
w times clip(s / (warmup * 1024), 0, 1): it equals w times that clip
expression, is 0 at s = 0, grows linearly as w * s / (warmup * 1024) up
to the warm-up end, equals exactly w at s = warmup * 1024, and stays w
beyond. -/
theorem ramp_weight_schedule (w : ℝ) (warmup : ℕ) (hw : 0 < warmup) :
    (∀ s : ℕ, rampedWMatch w warmup s =
        w * min (max ((s : ℝ) / ((warmup * 1024 : ℕ) : ℝ)) 0) 1)
    ∧ rampedWMatch w warmup 0 = 0
    ∧ (∀ s : ℕ, s ≤ warmup * 1024 →
        rampedWMatch w warmup s = w * ((s : ℝ) / ((warmup * 1024 : ℕ) : ℝ)))
    ∧ rampedWMatch w warmup (warmup * 1024) = w
    ∧ (∀ s : ℕ, warmup * 1024 ≤ s → rampedWMatch w warmup s = w) := by
  have hshift : ((warmup <<< 10 : ℕ) : ℝ) = ((warmup * 1024 : ℕ) : ℝ) := by
    rw [Nat.shiftLeft_eq]
  have hWpos : (0 : ℝ) < ((warmup * 1024 : ℕ) : ℝ) := by
    have h : 0 < warmup * 1024 := by positivity
    exact_mod_cast h
  have key : ∀ s : ℕ, rampedWMatch w warmup s =
      w * min (max ((s : ℝ) / ((warmup * 1024 : ℕ) : ℝ)) 0) 1 := by
    intro s
    rw [rampedWMatch, hshift]
  have linear : ∀ s : ℕ, s ≤ warmup * 1024 →
      rampedWMatch w warmup s = w * ((s : ℝ) / ((warmup * 1024 : ℕ) : ℝ)) := by
    intro s hs
    rw [key s]
    have h0 : (0 : ℝ) ≤ (s : ℝ) / ((warmup * 1024 : ℕ) : ℝ) :=
      div_nonneg (by positivity) (le_of_lt hWpos)
    have h1 : (s : ℝ) / ((warmup * 1024 : ℕ) : ℝ) ≤ 1 := by
      rw [div_le_one hWpos]
      exact_mod_cast hs
    rw [max_eq_left h0, min_eq_left h1]
  refine ⟨key, ?_, linear, ?_, ?_⟩
  · rw [key 0]
    simp
  · rw [linear (warmup * 1024) le_rfl, div_self (ne_of_gt hWpos), mul_one]
  · intro s hs
    rw [key s]
    have h1 : (1 : ℝ) ≤ (s : ℝ) / ((warmup * 1024 : ℕ) : ℝ) := by
      rw [le_div_iff hWpos, one_mul]
      exact_mod_cast hs
    have h0 : (0 : ℝ) ≤ (s : ℝ) / ((warmup * 1024 : ℕ) : ℝ) :=
      le_trans zero_le_one h1
    rw [max_eq_left h0, min_eq_right h1, mul_one]

/-- Witness for C3 at warm-up duration 1 kimg: the weight at exactly 1024
processed examples equals the configured maximum 5. -/
theorem ramp_weight_schedule_witness : rampedWMatch 5 1 (1 * 1024) = 5 :=
  (ramp_weight_schedule 5 1 (by decide)).2.2.2.1

/-! ## Claim C5: weight decay touches exactly the kernel variables -/

/-- C5: pairing every classifier trainable variable with its state after
the weight-decay ops: a variable whose name contains the kernel fragment
is multiplied by 1 - wd * lr (name unchanged), every other variable is
left exactly as it was. -/
theorem weight_decay_kernels_only (wd lr : ℝ) (vars : List TrainVar) :
    List.Forall₂ (fun v wv =>
        (hasKernel v.name = true →
          wv = { name := v.name, value := v.value * (1 - wd * lr) }) ∧
        (hasKernel v.name = false → wv = v))
      vars (applyWeightDecay wd lr vars) := by
  induction vars with
  | nil => exact List.Forall₂.nil
  | cons v t ih =>
    simp only [applyWeightDecay, List.map_cons] at ih ⊢
    refine List.Forall₂.cons ?_ ih
    constructor <;> intro h <;> simp [h]

/-! ## Claim C6: only the first interleaved batch contributes update ops -/

/-- C6: under freshness of graph nodes (newly emitted ops are not already
in the collection, and ops of distinct forward passes are distinct), the
post_ops computed at line 106 are exactly the update ops emitted by the
forward pass over interleaved batch 0; ops from all other forward passes
reach the global collection but never the committed post-step bundle. -/
theorem update_ops_labeled_stream_only (c0 : List Op) (emit : ℕ → List Op) (n : ℕ)
    (bk : List Op)
    (hfresh0 : ∀ v ∈ emit 0, v ∉ c0)
    (hfresh : ∀ i, 1 ≤ i → i < n → ∀ v ∈ emit i, v ∉ emit 0 ∧ v ∉ bk) :
    (buildLogitsPostOps c0 emit n).1 = emit 0
    ∧ (∀ i, 1 ≤ i → i < n → ∀ v ∈ emit i, v ∈ (buildLogitsPostOps c0 emit n).2)
    ∧ (∀ i, 1 ≤ i → i < n → ∀ v ∈ emit i, v ∉ committedPostOps c0 emit n bk) := by
  have hpost : (buildLogitsPostOps c0 emit n).1 = emit 0 := by
    simp only [buildLogitsPostOps, List.filter_append]
    have h1 : c0.filter (fun v => !(c0.contains v)) = [] := by
      rw [List.filter_eq_nil_iff]
      intro a ha
      simp [List.contains, ha]
    have h2 : (emit 0).filter (fun v => !(c0.contains v)) = emit 0 := by
      rw [List.filter_eq_self]
      intro a ha
      simp [List.contains, hfresh0 a ha]
    rw [h1, h2, List.nil_append]
  refine ⟨hpost, ?_, ?_⟩
  · intro i h1 h2 v hv
    simp only [buildLogitsPostOps, List.mem_append, List.mem_flatten]
    right
    refine ⟨emit i, ?_, hv⟩
    rw [List.mem_map]
    refine ⟨i - 1, ?_, by rw [Nat.sub_add_cancel h1]⟩
    rw [List.mem_range]
    omega
  · intro i h1 h2 v hv
    rw [committedPostOps, hpost]
    rw [List.mem_append]
    push_neg
    exact ⟨(hfresh i h1 h2 v hv).1, (hfresh i h1 h2 v hv).2⟩

/-- Witness for C6: one pre-existing op, two forward passes emitting fresh
ops 10 and 11, one bookkeeping op 99; op 11 is registered in the final
collection but not committed. -/
theorem update_ops_labeled_stream_only_witness :
    (buildLogitsPostOps [0] (fun i => [10 + i]) 2).1 = [10 + 0]
    ∧ 11 ∈ (buildLogitsPostOps [0] (fun i => [10 + i]) 2).2
    ∧ 11 ∉ committedPostOps [0] (fun i => [10 + i]) 2 [99] := by
  have h := update_ops_labeled_stream_only [0] (fun i => [10 + i]) 2 [99]
    (by decide)
    (by
      intro i h1 h2
      have hi : i = 1 := by omega
      subst hi
      decide)
  exact ⟨h.1, h.2.1 1 (by decide) (by decide) 11 (by decide),
    h.2.2 1 (by decide) (by decide) 11 (by decide)⟩

/-! ## Claim C7: the pseudo-label is gradient-detached -/

/-- C7: in the total-loss skeleton where the guessed pseudo-label enters
only under tf.stop_gradient (line 96), both the value and the derivative
with respect to the classifier parameter are the same as when the
pseudo-label is replaced by a fixed constant equal to its current value:
no gradient flows backward through the label-guessing computation. -/
theorem stop_gradient_detaches_pseudo_label (g xeTerm other logits : Exp)
    (lam w t : ℚ) :
    Exp.eval t (totalLossExp xeTerm w (mixExp lam (Exp.stopGrad g) other) logits) =
      Exp.eval t (totalLossExp xeTerm w (mixExp lam (Exp.lit (Exp.eval t g)) other) logits)
    ∧ Exp.grad t (totalLossExp xeTerm w (mixExp lam (Exp.stopGrad g) other) logits) =
      Exp.grad t (totalLossExp xeTerm w (mixExp lam (Exp.lit (Exp.eval t g)) other) logits) := by
  constructor <;> simp [totalLossExp, l2uExp, mixExp, Exp.eval, Exp.grad]

/-! ## Claim C2: the optimizer objective -/

theorem loss_xe_eq_supervised (labels logits : List (List ℝ))
    (hx : labels.length = logits.length) :
    loss_xe labels logits = supervisedLossSpec labels logits := by
  rw [loss_xe, supervisedLossSpec, reduceMean]
  have hlen : (List.zipWith xent labels logits).length = labels.length := by
    rw [List.length_zipWith, hx, min_self]
  rw [hlen]
  rfl

theorem zipWith_sq_rows_length (nclass : ℕ) :
    ∀ labels B : List (List ℝ), (∀ r ∈ labels, r.length = nclass) →
      (∀ r ∈ B, r.length = nclass) →
      ∀ r ∈ List.zipWith (fun lr zr => List.zipWith (fun a b => (a - b) ^ 2) lr zr) labels B,
        r.length = nclass := by
  intro labels
  induction labels with
  | nil =>
    intro B _ _ r hr
    simp at hr
  | cons x xs ih =>
    intro B h1 h2 r hr
    cases B with
    | nil => simp at hr
    | cons y ys =>
      simp only [List.zipWith_cons_cons, List.mem_cons] at hr
      rcases hr with rfl | hr
      · rw [List.length_zipWith, h1 x (by simp), h2 y (by simp), min_self]
      · exact ih ys (fun q hq => h1 q (by simp [hq])) (fun q hq => h2 q (by simp [hq])) r hr

theorem loss_l2u_eq_mse (labels logits : List (List ℝ)) (nclass : ℕ)
    (hy : labels.length = logits.length)
    (hyc : ∀ r ∈ labels, r.length = nclass)
    (hzc : ∀ r ∈ logits, r.length = nclass) :
    loss_l2u labels logits = mseSpec labels (logits.map softmax) nclass := by
  rw [loss_l2u, reduceMeanAll, mseSpec]
  set S := List.zipWith (fun lr zr => List.zipWith (fun a b => (a - b) ^ 2) lr zr)
    labels (logits.map softmax) with hS
  have hBrows : ∀ r ∈ logits.map softmax, r.length = nclass := by
    intro r hr
    obtain ⟨z, hz, rfl⟩ := List.mem_map.mp hr
    rw [softmax, List.length_map]
    exact hzc z hz
  have hSrows : ∀ r ∈ S, r.length = nclass :=
    zipWith_sq_rows_length nclass labels (logits.map softmax) hyc hBrows
  have hSlen : S.length = labels.length := by
    rw [hS, List.length_zipWith, List.length_map, ← hy, min_self]
  have hsum : S.flatten.sum = (S.map List.sum).sum := List.sum_flatten
  have hmap : S.map List.sum =
      List.zipWith (fun ra rb => (List.zipWith (fun x y => (x - y) ^ 2) ra rb).sum)
        labels (logits.map softmax) := by
    rw [hS, List.map_zipWith]
  have hflatlen : S.flatten.length = labels.length * nclass := by
    rw [flatten_length_uniform nclass S hSrows, hSlen]
  rw [hsum, hmap, hflatlen]

/-- C2: the scalar handed to the single optimizer update at line 131
equals the batch-mean softmax cross-entropy between the labeled-stream
logits and labels, plus the ramped matching weight (w_match times
clip(step / (warmup * 1024), 0, 1)) times the mean squared error between
the unlabeled-stream labels and the softmax of the unlabeled-stream
logits. -/
theorem optimizer_objective_decomposition (w_match : ℝ) (warmup_kimg step nclass : ℕ)
    (labels_x logits_x labels_y logits_y : List (List ℝ))
    (hx : labels_x.length = logits_x.length)
    (hy : labels_y.length = logits_y.length)
    (hyc : ∀ r ∈ labels_y, r.length = nclass)
    (hzc : ∀ r ∈ logits_y, r.length = nclass) :
    trainStepObjective w_match warmup_kimg step labels_x logits_x labels_y logits_y =
      supervisedLossSpec labels_x logits_x +
        (w_match * min (max ((step : ℝ) / ((warmup_kimg * 1024 : ℕ) : ℝ)) 0) 1) *
          mseSpec labels_y (logits_y.map softmax) nclass := by
  rw [trainStepObjective, loss_xe_eq_supervised labels_x logits_x hx,
    loss_l2u_eq_mse labels_y logits_y nclass hy hyc hzc, rampedWMatch]
  have hshift : ((warmup_kimg <<< 10 : ℕ) : ℝ) = ((warmup_kimg * 1024 : ℕ) : ℝ) := by
    rw [Nat.shiftLeft_eq]
  rw [hshift]

/-- Witness for C2 at a concrete one-example, one-class instance. -/
theorem optimizer_objective_decomposition_witness :
    trainStepObjective 1 1 0 [[(1 : ℝ)]] [[(0 : ℝ)]] [[(1 : ℝ)]] [[(0 : ℝ)]] =
      supervisedLossSpec [[(1 : ℝ)]] [[(0 : ℝ)]] +
        (1 * min (max (((0 : ℕ) : ℝ) / ((1 * 1024 : ℕ) : ℝ)) 0) 1) *
          mseSpec [[(1 : ℝ)]] ([[(0 : ℝ)]].map softmax) 1 :=
  optimizer_objective_decomposition 1 1 0 1 [[(1 : ℝ)]] [[(0 : ℝ)]] [[(1 : ℝ)]] [[(0 : ℝ)]]
    (by simp) (by simp) (by simp) (by simp)

/-! ## Claim C4: the hard-wired temperature -/

theorem transposeL_length {α : Type} (n : ℕ) :
    ∀ l : List (List α), l ≠ [] → (∀ r ∈ l, r.length = n) →
      (transposeL l).length = n := by
  intro l
  induction l with
  | nil => intro h _; exact absurd rfl h
  | cons r t ih =>
    intro _ h
    cases t with
    | nil =>
      simp only [transposeL, List.length_map]
      exact h r (by simp)
    | cons s tt =>
      simp only [transposeL, List.length_zipWith]
      rw [h r (by simp), ih (by simp) (fun q hq => h q (by simp [hq])), min_self]

theorem transposeL_rows {α : Type} (n : ℕ) :
    ∀ l : List (List α), (∀ r ∈ l, r.length = n) →
      ∀ row ∈ transposeL l, row.length = l.length := by
  intro l
  induction l with
  | nil =>
    intro _ row hrow
    simp [transposeL] at hrow
  | cons r t ih =>
    intro h row hrow
    cases t with
    | nil =>
      simp only [transposeL] at hrow
      obtain ⟨x, _, rfl⟩ := List.mem_map.mp hrow
      simp
    | cons s tt =>
      simp only [transposeL] at hrow
      obtain ⟨i, hi, hget⟩ := List.mem_iff_getElem.mp hrow
      rw [← hget, List.getElem_zipWith]
      have hi2 : i < (transposeL (s :: tt)).length := by
        rw [List.length_zipWith] at hi
        omega
      have hmem : (transposeL (s :: tt)).get ⟨i, hi2⟩ ∈ transposeL (s :: tt) :=
        List.get_mem _ i hi2
      have hlen := ih (fun q hq => h q (by simp [hq])) _ hmem
      have hlen2 : (transposeL (s :: tt))[i].length = (s :: tt).length := hlen
      simp [hlen2]

/-- C4: for every recognized configuration (the Config structure carries
exactly the keyword parameters of MixMatch.model, and has no temperature
field) and every rectangular unlabeled input, the guess built at line 94
is guess_label applied to the per-view batches at the literal temperature
one half: no configuration can select another value. -/
theorem model_temperature_is_half {I : Type} (cfg : Config) (y_in : List (List I))
    (classifier : I → List ℝ)
    (hb : y_in.length = cfg.batch) (hrow : ∀ r ∈ y_in, r.length = cfg.nu)
    (hb0 : 0 < cfg.batch) (hnu : 0 < cfg.nu) :
    modelGuess cfg y_in classifier = guess_label (transposeL y_in) classifier (1/2) := by
  rw [modelGuess]
  have hne : y_in ≠ [] := by
    intro hcon
    rw [hcon] at hb
    simp at hb
    omega
  have hTlen : (transposeL y_in).length = cfg.nu :=
    transposeL_length cfg.nu y_in hne hrow
  have hTrows : ∀ row ∈ transposeL y_in, row.length = cfg.batch := by
    intro row hrowm
    rw [transposeL_rows cfg.nu y_in hrow row hrowm, hb]
  have hflat : (transposeL y_in).flatten.length = cfg.nu * cfg.batch := by
    rw [flatten_length_uniform cfg.batch _ hTrows, hTlen]
  have hsplit : tfSplit cfg.nu (transposeL y_in).flatten = transposeL y_in := by
    rw [tfSplit, hflat, Nat.mul_div_right cfg.batch hnu]
    exact chunkList_flatten cfg.batch hb0 _ hTrows
  rw [hsplit]

/-- Witness for C4: one example with two views, a single class, and a
concrete configuration record. -/
theorem model_temperature_is_half_witness :
    modelGuess
        { batch := 1, lr := 0, wd := 0, ema := 0, beta := 0, w_match := 0,
          warmup_kimg := 1, nu := 2, mixmode := kernelToken, dbuf := 1 }
        [[(), ()]] (fun _ : Unit => [(0 : ℝ)]) =
      guess_label (transposeL [[(), ()]]) (fun _ : Unit => [(0 : ℝ)]) (1/2) :=
  model_temperature_is_half
    { batch := 1, lr := 0, wd := 0, ema := 0, beta := 0, w_match := 0,
      warmup_kimg := 1, nu := 2, mixmode := kernelToken, dbuf := 1 }
    [[(), ()]] (fun _ : Unit => [(0 : ℝ)])
    (by simp) (by decide) (by decide) (by decide)

/-! ## Claim C8: there is no explicit configuration validation -/

/-- Counterexample to C8 as stated: the malformed temperature -1 (so
T below 0) does not fail step construction with a validation error; the
label guesser silently proceeds and produces a well-defined result. -/
theorem failfast_counterexample :
    guess_label [[()]] (fun _ : Unit => [(0 : ℝ)]) (-1) =
      Except.ok { p_target := [[(1 : ℝ)]], p_model := [[(1 : ℝ)]] } := by
  rw [guess_label, if_neg (by norm_num)]
  simp [softmax, chunkList, meanAxis0, sumTensors, Real.exp_zero, Real.one_rpow]

/-- C8 amended: the module performs no validation of its own.  The only
construction-time failure is the Python ZeroDivisionError from computing
1/T at temperature exactly 0; every non-zero temperature, including the
malformed negative ones, is silently accepted and yields a well-defined
guess. -/
theorem no_explicit_validation :
    (∀ (I : Type) (y : List (List I)) (classifier : I → List ℝ),
        guess_label y classifier 0 = Except.error zeroDivisionMsg)
    ∧ (∀ T : ℚ, T ≠ 0 → ∀ (I : Type) (y : List (List I)) (classifier : I → List ℝ),
        ∃ g, guess_label y classifier T = Except.ok g) := by
  constructor
  · intro I y classifier
    rw [guess_label, if_pos rfl]
  · intro T hT I y classifier
    rw [guess_label, if_neg hT]
    exact ⟨_, rfl⟩

/-- Witness for C8 amended at the concrete malformed temperature -1. -/
theorem no_explicit_validation_witness :
    ∃ g, guess_label [[(), ()]] (fun _ : Unit => [(0 : ℝ), 0]) (-1) = Except.ok g :=
  no_explicit_validation.2 (-1) (by norm_num) Unit [[(), ()]] (fun _ : Unit => [(0 : ℝ), 0])

/-! ## Claim C10: the interleave round-trip law -/

theorem groupSizes_length (batch nu : ℕ) : (groupSizes batch nu).length = nu + 1 := by
  have h : batch % (nu + 1) < nu + 1 := Nat.mod_lt _ (Nat.succ_pos nu)
  simp only [groupSizes, List.length_append, List.length_replicate]
  omega

theorem groupSizes_sum (batch nu : ℕ) : (groupSizes batch nu).sum = batch := by
  have h : batch % (nu + 1) < nu + 1 := Nat.mod_lt _ (Nat.succ_pos nu)
  have hdm : (nu + 1) * (batch / (nu + 1)) + batch % (nu + 1) = batch :=
    Nat.div_add_mod batch (nu + 1)
  simp only [groupSizes, List.sum_append, List.sum_replicate, smul_eq_mul]
  set r := batch % (nu + 1) with hrdef
  set q := batch / (nu + 1) with hqdef
  obtain ⟨k, hk⟩ := Nat.le.dest (le_of_lt h)
  rw [← hk, Nat.add_sub_cancel_left]
  rw [← hk] at hdm
  rw [← hdm]
  ring

theorem splitSizes_length_pieces {α : Type} :
    ∀ (szs : List ℕ) (l : List α), szs.sum ≤ l.length →
      List.Forall₂ (fun s p => p.length = s) szs (splitSizes szs l) := by
  intro szs
  induction szs with
  | nil =>
    intro l _
    exact List.Forall₂.nil
  | cons s ss ih =>
    intro l h
    simp only [List.sum_cons] at h
    simp only [splitSizes]
    refine List.Forall₂.cons (List.length_take_of_le (by omega)) (ih (l.drop s) ?_)
    rw [List.length_drop]
    omega

theorem splitSizes_flatten {α : Type} :
    ∀ (szs : List ℕ) (l : List α), l.length = szs.sum → (splitSizes szs l).flatten = l := by
  intro szs
  induction szs with
  | nil =>
    intro l h
    simp only [List.sum_nil] at h
    obtain rfl := List.length_eq_zero.mp h
    simp [splitSizes]
  | cons s ss ih =>
    intro l h
    have hd : (l.drop s).length = ss.sum := by
      rw [List.length_drop, h, List.sum_cons]
      omega
    simp only [splitSizes, List.flatten_cons]
    rw [ih (l.drop s) hd, List.take_append_drop]

theorem splitSizes_of_pieces {α : Type} (szs : List ℕ) (P : List (List α))
    (h : List.Forall₂ (fun s p => p.length = s) szs P) :
    splitSizes szs P.flatten = P := by
  induction h with
  | nil => simp [splitSizes]
  | cons hab htail ih =>
    simp only [List.flatten_cons, splitSizes]
    rw [← hab, List.take_left, List.drop_left, ih]

theorem flatten_length_of_pieces {α : Type} (szs : List ℕ) (row : List (List α))
    (h : List.Forall₂ (fun s p => p.length = s) szs row) :
    row.flatten.length = szs.sum := by
  induction h with
  | nil => simp
  | cons hab htail ih =>
    simp only [List.flatten_cons, List.length_append, List.sum_cons, hab, ih]

theorem swapIdx_lt (n j i : ℕ) (hj : j < n) (hi : i < n) : swapIdx j i < n := by
  unfold swapIdx
  split_ifs with h1 h2 <;> omega

theorem swapIdx_invol (j i : ℕ) : swapIdx j (swapIdx j i) = i := by
  unfold swapIdx
  split_ifs with h1 h2 h3 h4 h5 h6 <;> omega

theorem get?_mapIdx {α β : Type} (l : List α) (f : ℕ → α → β) (i : ℕ) :
    (l.mapIdx f).get? i = (l.get? i).map (f i) := by
  by_cases h : i < l.length
  · have h2 : i < (l.mapIdx f).length := by
      rw [List.length_mapIdx]
      exact h
    rw [List.get?_eq_get h, List.get?_eq_get h2]
    simp [List.get_mapIdx]
  · have h2 : (l.mapIdx f).length ≤ i := by
      rw [List.length_mapIdx]
      omega
    rw [List.get?_len_le h2, List.get?_len_le (by omega)]
    rfl

theorem swapDiag_get? {β : Type} (M : List (List β)) (i : ℕ) :
    (swapDiag M).get? i =
      (M.get? i).map
        (fun row => row.mapIdx (fun j x => (M.getD (swapIdx j i) []).getD j x)) := by
  rw [swapDiag, get?_mapIdx]

theorem swapDiag_length {β : Type} (M : List (List β)) :
    (swapDiag M).length = M.length := by
  rw [swapDiag, List.length_mapIdx]

theorem mem_swapDiag {β : Type} (M : List (List β)) (row : List β)
    (h : row ∈ swapDiag M) :
    ∃ (i : ℕ) (hi : i < M.length),
      row = (M.get ⟨i, hi⟩).mapIdx (fun j x => (M.getD (swapIdx j i) []).getD j x) := by
  obtain ⟨n, hn⟩ := List.mem_iff_get?.mp h
  rw [swapDiag_get?] at hn
  obtain ⟨mrow, hm, hrow⟩ := Option.map_eq_some'.mp hn
  have hlt : n < M.length := by
    by_contra hge
    rw [List.get?_len_le (by omega)] at hm
    exact Option.noConfusion hm
  rw [List.get?_eq_get hlt] at hm
  obtain rfl : mrow = M.get ⟨n, hlt⟩ := (Option.some.inj hm).symm
  exact ⟨n, hlt, hrow.symm⟩

theorem swapDiag_sq {β : Type} (M : List (List β))
    (hsq : ∀ row ∈ M, row.length = M.length) :
    ∀ row ∈ swapDiag M, row.length = (swapDiag M).length := by
  intro row hrow
  obtain ⟨i, hi, rfl⟩ := mem_swapDiag M row hrow
  rw [List.length_mapIdx, swapDiag_length]
  exact hsq _ (List.get_mem M i hi)

theorem entry_swapDiag {β : Type} (M : List (List β))
    (hsq : ∀ row ∈ M, row.length = M.length) (i j : ℕ) :
    entry (swapDiag M) i j = entry M (swapIdx j i) j := by
  simp only [entry]
  rcases Nat.lt_or_ge i M.length with hi | hi
  · rw [swapDiag_get?, List.get?_eq_get hi]
    simp only [Option.map_some', Option.some_bind]
    rw [get?_mapIdx]
    have hrl : (M.get ⟨i, hi⟩).length = M.length := hsq _ (List.get_mem M i hi)
    rcases Nat.lt_or_ge j M.length with hj | hj
    · have hj2 : j < (M.get ⟨i, hi⟩).length := by
        rw [hrl]
        exact hj
      have hs : swapIdx j i < M.length := swapIdx_lt M.length j i hj hi
      have htl : (M.get ⟨swapIdx j i, hs⟩).length = M.length := hsq _ (List.get_mem M _ hs)
      have hj3 : j < (M.get ⟨swapIdx j i, hs⟩).length := by
        rw [htl]
        exact hj
      rw [List.get?_eq_get hj2, List.get?_eq_get hs]
      simp only [Option.map_some', Option.some_bind]
      rw [List.getD_eq_get M [] hs, List.getD_eq_get _ _ hj3, List.get?_eq_get hj3]
    · have hj2 : (M.get ⟨i, hi⟩).length ≤ j := by
        rw [hrl]
        exact hj
      rw [List.get?_len_le hj2]
      simp only [Option.map_none']
      rcases Nat.lt_or_ge (swapIdx j i) M.length with hs | hs
      · rw [List.get?_eq_get hs]
        simp only [Option.some_bind]
        have hle : (M.get ⟨swapIdx j i, hs⟩).length ≤ j := by
          rw [hsq _ (List.get_mem M _ hs)]
          exact hj
        rw [List.get?_len_le hle]
      · rw [List.get?_len_le hs]
        simp
  · have h1 : (swapDiag M).length ≤ i := by
      rw [swapDiag_length]
      exact hi
    rw [List.get?_len_le h1]
    simp only [Option.none_bind]
    rcases Nat.eq_zero_or_pos M.length with hn | hn
    · obtain rfl : M = [] := List.length_eq_zero.mp hn
      simp
    · have hi0 : i ≠ 0 := by omega
      by_cases hij : i = j
      · have hs0 : swapIdx j i = 0 := by
          unfold swapIdx
          split_ifs with a b <;> omega
        rw [hs0, List.get?_eq_get hn]
        simp only [Option.some_bind]
        have hle : (M.get ⟨0, hn⟩).length ≤ j := by
          rw [hsq _ (List.get_mem M 0 hn)]
          omega
        rw [List.get?_len_le hle]
      · have hsi : swapIdx j i = i := by
          unfold swapIdx
          split_ifs with a b <;> omega
        rw [hsi, List.get?_len_le hi]
        simp

theorem swapDiag_pieces {β : Type} (szs : List ℕ) (M : List (List (List β)))
    (hlen : M.length = szs.length)
    (hsq : ∀ row ∈ M, row.length = M.length)
    (hp : ∀ row ∈ M, List.Forall₂ (fun s p => p.length = s) szs row) :
    ∀ row ∈ swapDiag M, List.Forall₂ (fun s p => p.length = s) szs row := by
  intro row hrow
  obtain ⟨i, hi, rfl⟩ := mem_swapDiag M row hrow
  apply List.forall₂_of_length_eq_of_get
  · rw [List.length_mapIdx, hsq _ (List.get_mem M i hi)]
    exact hlen.symm
  · intro j h1 h2
    have hj0 : j < (M.get ⟨i, hi⟩).length := by
      rw [hsq _ (List.get_mem M i hi), hlen]
      exact h1
    rw [List.get_mapIdx _ _ j hj0]
    have hj : j < M.length := by
      rw [hlen]
      exact h1
    have hs : swapIdx j i < M.length := swapIdx_lt M.length j i hj hi
    rw [List.getD_eq_get M [] hs]
    have hf := hp _ (List.get_mem M _ hs)
    have hTlen : (M.get ⟨swapIdx j i, hs⟩).length = szs.length :=
      (List.Forall₂.length_eq hf).symm
    have hj4 : j < (M.get ⟨swapIdx j i, hs⟩).length := by
      rw [hTlen]
      exact h1
    rw [List.getD_eq_get _ _ hj4]
    exact (List.forall₂_iff_get.mp hf).2 j h1 hj4

theorem swapDiag_swapDiag {β : Type} (M : List (List β))
    (hsq : ∀ row ∈ M, row.length = M.length) :
    swapDiag (swapDiag M) = M := by
  have hsq2 : ∀ row ∈ swapDiag M, row.length = (swapDiag M).length := swapDiag_sq M hsq
  have hentry : ∀ i j, entry (swapDiag (swapDiag M)) i j = entry M i j := by
    intro i j
    rw [entry_swapDiag (swapDiag M) hsq2 i j,
      entry_swapDiag M hsq (swapIdx j i) j, swapIdx_invol]
  have hL : (swapDiag (swapDiag M)).length = M.length := by
    rw [swapDiag_length, swapDiag_length]
  apply List.ext_get?
  intro i
  by_cases hi : i < M.length
  · have h1 : i < (swapDiag (swapDiag M)).length := by
      rw [hL]
      exact hi
    rw [List.get?_eq_get hi, List.get?_eq_get h1]
    congr 1
    apply List.ext_get?
    intro j
    have e := hentry i j
    rw [entry, entry, List.get?_eq_get hi, List.get?_eq_get h1] at e
    simpa using e
  · rw [List.get?_len_le (by rw [hL]; omega), List.get?_len_le (by omega)]

theorem interleave_eq {α : Type} (xy : List (List α)) (batch : ℕ) :
    interleave xy batch =
      (swapDiag (xy.map (fun v => splitSizes (groupSizes batch (xy.length - 1)) v))).map
        List.flatten := rfl

/-- C10: for every nonempty list of streams of the same positive batch
size, applying the interleave operation twice with the same grouping
restores the original per-stream grouping exactly (interleave is
self-inverse). -/
theorem interleave_roundtrip {α : Type} (xy : List (List α)) (batch : ℕ)
    (hne : xy ≠ []) (hlen : ∀ b ∈ xy, b.length = batch) :
    interleave (interleave xy batch) batch = xy := by
  have hn0 : 0 < xy.length := List.length_pos.mpr hne
  have hI1len : (interleave xy batch).length = xy.length := by
    rw [interleave_eq, List.length_map, swapDiag_length, List.length_map]
  rw [interleave_eq (interleave xy batch) batch, hI1len, interleave_eq xy batch]
  set szs := groupSizes batch (xy.length - 1) with hszs
  have hszslen : szs.length = xy.length := by
    rw [hszs, groupSizes_length]
    omega
  have hszssum : szs.sum = batch := by rw [hszs, groupSizes_sum]
  set P := xy.map (fun v => splitSizes szs v) with hP
  have hPlen : P.length = xy.length := by rw [hP, List.length_map]
  have hProws : ∀ row ∈ P, List.Forall₂ (fun s p => p.length = s) szs row := by
    intro row hrow
    rw [hP] at hrow
    obtain ⟨v, hv, rfl⟩ := List.mem_map.mp hrow
    exact splitSizes_length_pieces szs v (by rw [hszssum, hlen v hv])
  have hPsq : ∀ row ∈ P, row.length = P.length := by
    intro row hrow
    have h2 := List.Forall₂.length_eq (hProws row hrow)
    omega
  have hQrows : ∀ row ∈ swapDiag P, List.Forall₂ (fun s p => p.length = s) szs row :=
    swapDiag_pieces szs P (by omega) hPsq hProws
  have hstep1 : ((swapDiag P).map List.flatten).map (fun v => splitSizes szs v) =
      swapDiag P := by
    rw [List.map_map]
    have hpt : ∀ row ∈ swapDiag P,
        ((fun v => splitSizes szs v) ∘ List.flatten) row = id row := fun row hrow =>
      splitSizes_of_pieces szs row (hQrows row hrow)
    rw [List.map_congr_left hpt, List.map_id]
  rw [hstep1, swapDiag_swapDiag P hPsq, hP, List.map_map]
  have hpt2 : ∀ v ∈ xy, (List.flatten ∘ fun v => splitSizes szs v) v = id v := fun v hv =>
    splitSizes_flatten szs v (by rw [hszssum, hlen v hv])
  rw [List.map_congr_left hpt2, List.map_id]

/-- Witness for C10 with two streams of batch size two. -/
theorem interleave_roundtrip_witness :
    interleave (interleave [[1, 2], [3, 4]] 2) 2 = [[1, 2], [3, 4]] :=
  interleave_roundtrip [[1, 2], [3, 4]] 2 (by decide) (by decide)

end MixMatchSpec
